import Mathlib

/- Verification of the pycuber scrambler core (src/pycuber/scrambler.py):
permutation parity by cycle decomposition, random-state generation invariants,
the 54-facelet state encoder, move-sequence inversion, and the error boundary
of get_scramble. Python lists become Lean lists, strings become Lean strings
or character lists, the mutable facelet array becomes a list updated by
List.set, and raised exceptions become Except values. -/

set_option maxHeartbeats 1000000

namespace PyCuber

/- Permutation parity engine: scrambler.get_permutation_parity. -/

/-- Number of unvisited slots; the termination measure of the inner while loop. -/
def countFalse (v : List Bool) : Nat := v.count false

lemma countFalse_set (v : List Bool) (j : Nat) (h : v.getD j true = false) :
    countFalse (v.set j true) + 1 = countFalse v := by
  induction v generalizing j with
  | nil => simp [List.getD] at h
  | cons b t ih =>
    cases j with
    | zero =>
      simp only [List.getD_cons_zero] at h
      subst h
      simp [countFalse, List.count_cons]
    | succ m =>
      simp only [List.getD_cons_succ] at h
      have := ih m h
      simp only [List.set, countFalse, List.count_cons] at *
      omega

/-- The inner while loop of get_permutation_parity: starting at index `j`,
follow `j = perm[j]` marking every index visited, until a visited index
(or an out-of-range one, which Python's precondition excludes) is reached. -/
def markCycle (perm : List Nat) (v : List Bool) (j : Nat) : List Bool :=
  if h : v.getD j true = false then
    markCycle perm (v.set j true) (perm.getD j 0)
  else v
termination_by countFalse v
decreasing_by
  have := countFalse_set v j h
  omega

lemma markCycle_unvisited (perm : List Nat) (v : List Bool) (j : Nat)
    (h : v.getD j true = false) :
    markCycle perm v j = markCycle perm (v.set j true) (perm.getD j 0) := by
  rw [markCycle, dif_pos h]

lemma markCycle_visited (perm : List Nat) (v : List Bool) (j : Nat)
    (h : ¬ v.getD j true = false) :
    markCycle perm v j = v := by
  rw [markCycle, dif_neg h]

/-- The outer for loop of get_permutation_parity, iterating over the index
list and carrying the visited array and the cycle counter. -/
def parityLoop (perm : List Nat) : List Nat → List Bool × Nat → List Bool × Nat
  | [], st => st
  | i :: is, st =>
    if st.1.getD i true = false then
      parityLoop perm is (markCycle perm st.1 i, st.2 + 1)
    else
      parityLoop perm is st

/-- scrambler.get_permutation_parity: parity of a permutation by cycle
decomposition, 0 for even and 1 for odd. -/
def get_permutation_parity (perm : List Nat) : Nat :=
  (perm.length - (parityLoop perm (List.range perm.length)
    (List.replicate perm.length false, 0)).2) % 2

/- Move inverter: scrambler.invert_move and scrambler.invert_solution. -/

/-- The prime character, ASCII 39. -/
def primeChar : Char := '\x27'

/-- scrambler.invert_move on the characters of one move token: a trailing
prime is removed, a double move is unchanged, anything else gets a prime. -/
def invert_move (m : List Char) : List Char :=
  if m.getLast? = some primeChar then m.dropLast
  else if m.getLast? = some '2' then m
  else m ++ [primeChar]

/-- Whitespace as recognized by Python str.split(). -/
def isSpaceChar (c : Char) : Bool := c = ' ' || c = '\t' || c = '\n' || c = '\r'

/-- Worker for Python str.split() with no arguments: split on whitespace
runs, producing no empty tokens; `acc` holds the current token reversed. -/
def splitWSAux : List Char → List Char → List (List Char)
  | [], acc => if acc.isEmpty then [] else [acc.reverse]
  | c :: cs, acc =>
    if isSpaceChar c then
      if acc.isEmpty then splitWSAux cs []
      else acc.reverse :: splitWSAux cs []
    else splitWSAux cs (c :: acc)

/-- Python str.split() with no arguments. -/
def splitWS (s : List Char) : List (List Char) := splitWSAux s []

/-- Python " ".join. -/
def joinSpace (ts : List (List Char)) : List Char := (ts.intersperse [' ']).flatten

/-- scrambler.invert_solution on the underlying character list: empty input
gives empty output, otherwise split into move tokens, reverse, invert each
token, and join with single spaces. -/
def invertSolutionChars (solution : List Char) : List Char :=
  if solution.isEmpty then []
  else joinSpace (((splitWS solution).reverse).map invert_move)

/-- scrambler.invert_solution. -/
def invert_solution (solution : String) : String :=
  String.mk (invertSolutionChars solution.data)

/- State encoder: the fixed tables and loops of generate_random_state_string. -/

/-- The solved-state facelet string. -/
def solved_chars : List Char :=
  "UUUUUUUUURRRRRRRRRFFFFFFFFFDDDDDDDDDLLLLLLLLLBBBBBBBBB".toList

/-- Sticker positions of the 8 corner pieces in solved order. -/
def corner_stickers : List (List Nat) :=
  [[8, 9, 20], [6, 18, 38], [0, 36, 47], [2, 45, 11],
   [29, 26, 15], [27, 44, 24], [33, 53, 42], [35, 17, 51]]

/-- Sticker positions of the 12 edge pieces in solved order. -/
def edge_stickers : List (List Nat) :=
  [[7, 19], [5, 10], [1, 46], [3, 37], [23, 12], [21, 41],
   [48, 14], [50, 39], [28, 25], [32, 16], [34, 52], [30, 43]]

/-- The six immovable center positions. -/
def center_indices : List Nat := [4, 13, 22, 31, 40, 49]

/-- Corner orientations: the 7 free draws plus the determined 8th one. -/
def completeCorners (co : List Nat) : List Nat := co ++ [(3 - co.sum % 3) % 3]

/-- Edge orientations: the 11 free draws plus the determined 12th one. -/
def completeEdges (eo : List Nat) : List Nat := eo ++ [(2 - eo.sum % 2) % 2]

/-- The statement ep[0], ep[1] = ep[1], ep[0]. -/
def swapFirstTwo : List Nat → List Nat
  | a :: b :: t => b :: a :: t
  | l => l

/-- The corrective swap of the first two edge entries, applied when the
corner and edge permutation parities differ. -/
def fixParity (cp ep : List Nat) : List Nat :=
  if get_permutation_parity cp ≠ get_permutation_parity ep then swapFirstTwo ep else ep

/-- The (position, character) assignments of the corner loop, in program
order: piece `i` goes to slot `cp[i]` with orientation `co[i]`. -/
def cornerWrites (cp co : List Nat) : List (Nat × Char) :=
  (List.range 8).flatMap (fun i =>
    (List.range 3).map (fun k =>
      ((corner_stickers.getD (cp.getD i 0) []).getD ((k + co.getD i 0) % 3) 0,
       solved_chars.getD ((corner_stickers.getD i []).getD k 0) ' ')))

/-- The (position, character) assignments of the edge loop. -/
def edgeWrites (ep eo : List Nat) : List (Nat × Char) :=
  (List.range 12).flatMap (fun i =>
    (List.range 2).map (fun k =>
      ((edge_stickers.getD (ep.getD i 0) []).getD ((k + eo.getD i 0) % 2) 0,
       solved_chars.getD ((edge_stickers.getD i []).getD k 0) ' ')))

/-- The center fill: centers are copied unchanged from the solved string. -/
def centerWrites : List (Nat × Char) :=
  center_indices.map (fun idx => (idx, solved_chars.getD idx ' '))

/-- Sequential assignments facelets[p] = c over the facelet array. -/
def applyWrites (fl : List (Option Char)) (ws : List (Nat × Char)) : List (Option Char) :=
  ws.foldl (fun f w => f.set w.1 (some w.2)) fl

/-- The facelet array after the corner loop, the edge loop and the center
fill, starting from 54 empty cells. -/
def encodeFacelets (cp co ep eo : List Nat) : List (Option Char) :=
  applyWrites (applyWrites (applyWrites (List.replicate 54 (none : Option Char))
    (cornerWrites cp co)) (edgeWrites ep eo)) centerWrites

/-- Deterministic core of scrambler.generate_random_state_string, taking the
random draws (the two shuffled permutations and the free orientation draws)
as inputs; the raised ValueError becomes an Except.error. -/
def generate_random_state_string (cp ep coDraw eoDraw : List Nat) :
    Except String String :=
  let co := completeCorners coDraw
  let eo := completeEdges eoDraw
  let ep2 := fixParity cp ep
  let fl := encodeFacelets cp co ep2 eo
  if fl.any (fun o => o.isNone) then
    Except.error ("Generated facelet string has missing values at indices: "
      ++ toString ((fl.enum.filter (fun p => p.2.isNone)).map Prod.fst))
  else
    Except.ok (String.mk (fl.map (fun o => o.getD ' ')))

/-- scrambler.get_scramble, with the generation outcome and the kociemba
oracle as parameters: the try/except becomes the Except matches, and the
caught-exception branch returns the diagnostic string. When the generator
itself fails, `state` still holds its initial value "". -/
def get_scramble (gen : Except String String)
    (solve : String → Except String String) : String :=
  match gen with
  | Except.error e => "Error generating scramble: " ++ e ++ " | State: " ++ ""
  | Except.ok state =>
    match solve state with
    | Except.error e => "Error generating scramble: " ++ e ++ " | State: " ++ state
    | Except.ok solution => invert_solution solution

/- Theorems for the claims, with supporting lemmas. -/

/-- C3: the sum of the 8 corner orientations is divisible by 3 and the sum
of the 12 edge orientations is divisible by 2, when the first 7 corner
orientations are free draws in {0,1,2} with the 8th fixed as
(3 - sum mod 3) mod 3, and the first 11 edge orientations are free draws in
{0,1} with the 12th fixed as (2 - sum mod 2) mod 2. -/
theorem orientation_sums (co eo : List Nat)
    (hco : co.length = 7) (hco3 : ∀ x ∈ co, x < 3)
    (heo : eo.length = 11) (heo2 : ∀ x ∈ eo, x < 2) :
    (completeCorners co).sum % 3 = 0 ∧ (completeEdges eo).sum % 2 = 0 := by
  constructor
  · simp only [completeCorners, List.sum_append, List.sum_cons, List.sum_nil]
    omega
  · simp only [completeEdges, List.sum_append, List.sum_cons, List.sum_nil]
    omega

theorem orientation_sums_witness :
    (completeCorners [0, 1, 2, 0, 1, 2, 0]).sum % 3 = 0 ∧
      (completeEdges [1, 0, 1, 0, 1, 0, 1, 0, 1, 0, 1]).sum % 2 = 0 :=
  orientation_sums [0, 1, 2, 0, 1, 2, 0] [1, 0, 1, 0, 1, 0, 1, 0, 1, 0, 1]
    (by decide) (by decide) (by decide) (by decide)

/-- C1: get_scramble is a total function into strings for every generation
outcome and every oracle behavior (it never propagates a failure), and when
the oracle fails on the generated facelet string the returned string is the
non-empty diagnostic embedding the failure message and the facelet string. -/
theorem get_scramble_never_raises (state msg : String)
    (solve : String → Except String String)
    (hsolve : solve state = Except.error msg) :
    (∀ gen : Except String String, ∀ sv : String → Except String String,
      ∃ out : String, get_scramble gen sv = out) ∧
    get_scramble (Except.ok state) solve
      = "Error generating scramble: " ++ msg ++ " | State: " ++ state ∧
    get_scramble (Except.ok state) solve ≠ "" := by
  refine ⟨fun gen sv => ⟨_, rfl⟩, ?_, ?_⟩
  · simp [get_scramble, hsolve]
  · simp only [get_scramble, hsolve]
    intro h
    have hlen := congrArg String.length h
    simp [String.length_append] at hlen
    have : ("Error generating scramble: " : String).length = 27 := by decide
    omega

theorem get_scramble_never_raises_witness :
    ((fun _ : String => (Except.error "solver failed" : Except String String)) "UUD" =
        Except.error "solver failed") ∧
    get_scramble (Except.ok "UUD") (fun _ => Except.error "solver failed")
      = "Error generating scramble: " ++ "solver failed" ++ " | State: " ++ "UUD" :=
  ⟨rfl, (get_scramble_never_raises "UUD" "solver failed"
    (fun _ => Except.error "solver failed") rfl).2.1⟩

/-- C9 fails on the code: an encoding-invariant violation raised by the
encoder is caught by the same broad except-handler of get_scramble as an
oracle failure, and is returned absorbed into the very same diagnostic
string format; it can even coincide exactly with a possible oracle-failure
result, so a test suite cannot observe it as a distinct internal error. -/
theorem masking_counterexample :
    get_scramble
        (Except.error "Generated facelet string has missing values at indices: [0]")
        (fun _ => Except.ok "")
      = "Error generating scramble: Generated facelet string has missing values at indices: [0] | State: "
    ∧ ∃ (state msg : String) (solve : String → Except String String),
        solve state = Except.error msg ∧
        get_scramble (Except.ok state) solve
          = "Error generating scramble: Generated facelet string has missing values at indices: [0] | State: " := by
  constructor
  · rfl
  · exact ⟨"", "Generated facelet string has missing values at indices: [0]",
      fun _ => Except.error "Generated facelet string has missing values at indices: [0]",
      rfl, rfl⟩

/-- C9 amended: the encoder does abort its own run on an invariant violation
(an Except.error, modelling the raised ValueError), but get_scramble absorbs
that error into the same diagnostic-string result format used for oracle
failures, with an empty State field. -/
theorem masking_amended (e : String) (solve : String → Except String String) :
    get_scramble (Except.error e) solve
      = "Error generating scramble: " ++ e ++ " | State: " ++ "" := rfl

/- Move grammar and the involution property of the inverter. -/

/-- The six face symbols. -/
def faceChars : List Char := ['U', 'R', 'F', 'D', 'L', 'B']

/-- A move token per the grammar: a face symbol plus an optional modifier,
which is either the prime character or the double-turn digit 2. -/
def isValidMove (m : List Char) : Prop :=
  ∃ f tl, f ∈ faceChars ∧ (tl = [] ∨ tl = [primeChar] ∨ tl = ['2']) ∧ m = f :: tl

lemma face_not_modifier {f : Char} (hf : f ∈ faceChars) :
    f ≠ primeChar ∧ f ≠ '2' := by
  fin_cases hf <;> exact ⟨by decide, by decide⟩

/-- A single move inversion round-trips: a double move is self-inverse, and
a quarter turn and its prime invert to each other. -/
lemma invert_move_involution {m : List Char} (hm : isValidMove m) :
    invert_move (invert_move m) = m := by
  obtain ⟨f, tl, hf, htl, rfl⟩ := hm
  obtain ⟨hf1, hf2⟩ := face_not_modifier hf
  rcases htl with rfl | rfl | rfl
  · simp [invert_move, List.getLast?, hf1, hf2]
  · simp [invert_move, List.getLast?, hf1, hf2]
  · simp [invert_move, List.getLast?, hf1, hf2, primeChar]

lemma invert_move_valid {m : List Char} (hm : isValidMove m) :
    isValidMove (invert_move m) := by
  obtain ⟨f, tl, hf, htl, rfl⟩ := hm
  obtain ⟨hf1, hf2⟩ := face_not_modifier hf
  rcases htl with rfl | rfl | rfl
  · exact ⟨f, [primeChar], hf, by simp, by simp [invert_move, List.getLast?, hf1, hf2]⟩
  · exact ⟨f, [], hf, by simp, by simp [invert_move, List.getLast?, hf1, hf2]⟩
  · exact ⟨f, ['2'], hf, by simp, by simp [invert_move, List.getLast?, hf1, hf2, primeChar]⟩

lemma valid_move_ne_nil {m : List Char} (hm : isValidMove m) : m ≠ [] := by
  obtain ⟨f, tl, _, _, rfl⟩ := hm
  simp

lemma valid_move_no_space {m : List Char} (hm : isValidMove m) :
    ∀ c ∈ m, isSpaceChar c = false := by
  obtain ⟨f, tl, hf, htl, rfl⟩ := hm
  intro c hc
  rcases List.mem_cons.mp hc with rfl | hc2
  · fin_cases hf <;> decide
  · rcases htl with rfl | rfl | rfl
    · simp at hc2
    · simp at hc2
      subst hc2
      decide
    · simp at hc2
      subst hc2
      decide

lemma splitWSAux_word (w : List Char) (hns : ∀ c ∈ w, isSpaceChar c = false) :
    ∀ rest acc, splitWSAux (w ++ rest) acc = splitWSAux rest (w.reverse ++ acc) := by
  induction w with
  | nil => intro rest acc; simp
  | cons c w ih =>
    intro rest acc
    have hc : isSpaceChar c = false := hns c (by simp)
    have hw : ∀ x ∈ w, isSpaceChar x = false := fun x hx => hns x (by simp [hx])
    simp only [List.cons_append, splitWSAux, hc, Bool.false_eq_true, if_false]
    simp only [List.reverse_cons, List.append_assoc, List.singleton_append]
    exact ih hw rest (c :: acc)

lemma joinSpace_cons_cons (t t2 : List Char) (rest : List (List Char)) :
    joinSpace (t :: t2 :: rest) = t ++ ' ' :: joinSpace (t2 :: rest) := by
  simp [joinSpace, List.intersperse]

/-- Splitting a single-space join recovers the tokens, when every token is
non-empty and contains no whitespace. -/
lemma splitWS_joinSpace (ts : List (List Char))
    (hne : ∀ t ∈ ts, t ≠ [])
    (hns : ∀ t ∈ ts, ∀ c ∈ t, isSpaceChar c = false) :
    splitWS (joinSpace ts) = ts := by
  induction ts with
  | nil => rfl
  | cons t rest ih =>
    have ht : t ≠ [] := hne t (by simp)
    have htn : ∀ c ∈ t, isSpaceChar c = false := hns t (by simp)
    cases rest with
    | nil =>
      have : joinSpace [t] = t ++ [] := by simp [joinSpace, List.intersperse]
      rw [splitWS, this, splitWSAux_word t htn]
      simp only [splitWSAux, List.append_nil, List.isEmpty_iff, List.reverse_eq_nil_iff]
      rw [if_neg ht, List.reverse_reverse]
    | cons t2 rest2 =>
      have ih2 := ih (fun x hx => hne x (by simp [hx])) (fun x hx => hns x (by simp [hx]))
      rw [joinSpace_cons_cons, splitWS, splitWSAux_word t htn]
      have hsp : isSpaceChar ' ' = true := by decide
      have hrev : (t.reverse.isEmpty) = false := by
        cases t with
        | nil => exact absurd rfl ht
        | cons a b => simp
      simp only [List.append_nil, splitWSAux, hsp, if_true, hrev, Bool.false_eq_true,
        if_false, List.reverse_reverse]
      rw [← splitWS, ih2]

lemma joinSpace_ne_nil (t : List Char) (rest : List (List Char)) (ht : t ≠ []) :
    joinSpace (t :: rest) ≠ [] := by
  cases rest with
  | nil =>
    simpa [joinSpace, List.intersperse] using ht
  | cons t2 rest2 =>
    rw [joinSpace_cons_cons]
    intro h
    exact ht (List.append_eq_nil.mp h).1

/-- C6: invert_solution is an involution on serialized sequences of valid
moves: reversing twice restores the order and each individual move
inversion is self-inverse. Stated both for the character-level function and
for the string-level wrapper. -/
theorem invert_solution_involution (ts : List (List Char))
    (hval : ∀ t ∈ ts, isValidMove t) :
    invertSolutionChars (invertSolutionChars (joinSpace ts)) = joinSpace ts ∧
    invert_solution (invert_solution (String.mk (joinSpace ts)))
      = String.mk (joinSpace ts) := by
  have main : ∀ (us : List (List Char)), (∀ t ∈ us, isValidMove t) →
      invertSolutionChars (joinSpace us) = joinSpace (us.reverse.map invert_move) := by
    intro us hus
    cases us with
    | nil => rfl
    | cons t rest =>
      rw [invertSolutionChars,
        if_neg (by simpa [List.isEmpty_iff] using
          joinSpace_ne_nil t rest (valid_move_ne_nil (hus t (by simp)))),
        splitWS_joinSpace _ (fun x hx => valid_move_ne_nil (hus x hx))
          (fun x hx => valid_move_no_space (hus x hx))]
  have h1 : invertSolutionChars (joinSpace ts) = joinSpace (ts.reverse.map invert_move) :=
    main ts hval
  have hval2 : ∀ t ∈ ts.reverse.map invert_move, isValidMove t := by
    intro t ht
    obtain ⟨u, hu, rfl⟩ := List.mem_map.mp ht
    exact invert_move_valid (hval u (List.mem_reverse.mp hu))
  have h2 := main _ hval2
  have h3 : (ts.reverse.map invert_move).reverse.map invert_move = ts := by
    rw [List.reverse_map, List.reverse_reverse, List.map_map]
    have : ∀ t ∈ ts, (invert_move ∘ invert_move) t = id t := by
      intro t ht
      exact invert_move_involution (hval t ht)
    rw [List.map_congr_left this, List.map_id]
  refine ⟨?_, ?_⟩
  · rw [h1, h2, h3]
  · show String.mk (invertSolutionChars (invertSolutionChars (joinSpace ts))) = _
    rw [h1, h2, h3]

theorem invert_solution_involution_witness :
    (∀ t ∈ [['R'], ['U', '2'], ['F', primeChar]], isValidMove t) ∧
    invertSolutionChars (invertSolutionChars
      (joinSpace [['R'], ['U', '2'], ['F', primeChar]]))
      = joinSpace [['R'], ['U', '2'], ['F', primeChar]] := by
  have hv : ∀ t ∈ [['R'], ['U', '2'], ['F', primeChar]], isValidMove t := by
    intro t ht
    simp only [List.mem_cons, List.mem_singleton, List.not_mem_nil, or_false] at ht
    rcases ht with rfl | rfl | rfl
    · exact ⟨'R', [], by decide, Or.inl rfl, rfl⟩
    · exact ⟨'U', ['2'], by decide, Or.inr (Or.inr rfl), rfl⟩
    · exact ⟨'F', [primeChar], by decide, Or.inr (Or.inl rfl), rfl⟩
  exact ⟨hv, (invert_solution_involution _ hv).1⟩

/-- C8: on the concrete inputs the spec fixes, the inverter returns exactly
the specified outputs: the sequence R U R-prime inverts to R U-prime
R-prime (both at token-list level and through invert_solution on the
serialized string), and the empty sequence inverts to the empty sequence,
whose serialization is the empty string. -/
theorem invert_concrete_cases :
    (([['R'], ['U'], ['R', primeChar]].reverse).map invert_move
      = [['R'], ['U', primeChar], ['R', primeChar]]) ∧
    invert_solution (String.mk ['R', ' ', 'U', ' ', 'R', primeChar])
      = String.mk ['R', ' ', 'U', primeChar, ' ', 'R', primeChar] ∧
    invert_solution "" = "" := by
  refine ⟨by decide, by decide, rfl⟩

/- Termination and step bound of get_permutation_parity (claim C10): the
algorithm is rerun with an explicit global budget of marking steps, each
marking of an unvisited index consuming one unit; a budget of n suffices. -/

/-- markCycle with an explicit budget of marking steps; it gives up when the
budget is exhausted and returns the budget left. -/
def markCycleB (perm : List Nat) : Nat → List Bool → Nat → List Bool × Nat
  | 0, v, _ => (v, 0)
  | b + 1, v, j =>
    if v.getD j true = false then markCycleB perm b (v.set j true) (perm.getD j 0)
    else (v, b + 1)

/-- The outer loop threading the remaining marking budget through. -/
def parityLoopB (perm : List Nat) :
    List Nat → List Bool × Nat × Nat → List Bool × Nat × Nat
  | [], st => st
  | i :: is, st =>
    if st.1.getD i true = false then
      let r := markCycleB perm st.2.2 st.1 i
      parityLoopB perm is (r.1, st.2.1 + 1, r.2)
    else parityLoopB perm is st

/-- get_permutation_parity recomputed with a global budget of
perm.length marking steps. -/
def parityBudget (perm : List Nat) : Nat :=
  (perm.length - (parityLoopB perm (List.range perm.length)
    (List.replicate perm.length false, 0, perm.length)).2.1) % 2

lemma getD_false_lt (v : List Bool) (j : Nat) (h : v.getD j true = false) :
    j < v.length := by
  by_contra h2
  rw [List.getD_eq_default _ _ (by omega)] at h
  exact absurd h (by decide)

lemma countFalse_pos (v : List Bool) (j : Nat) (h : v.getD j true = false) :
    0 < countFalse v := by
  have hj := getD_false_lt v j h
  rw [List.getD_eq_getElem _ _ hj] at h
  have hm : false ∈ v := h ▸ List.getElem_mem hj
  simpa [countFalse, List.count_pos_iff] using hm

lemma countFalse_markCycle_le (perm : List Nat) :
    ∀ (m : Nat) (v : List Bool) (j : Nat), countFalse v ≤ m →
      countFalse (markCycle perm v j) ≤ countFalse v := by
  intro m
  induction m with
  | zero =>
    intro v j h
    rw [markCycle_visited]
    intro hfalse
    have := countFalse_pos v j hfalse
    omega
  | succ m ih =>
    intro v j
    by_cases h : v.getD j true = false
    · intro hm
      rw [markCycle_unvisited _ _ _ h]
      have h2 := countFalse_set v j h
      have h3 := ih (v.set j true) (perm.getD j 0) (by omega)
      omega
    · intro hm
      rw [markCycle_visited _ _ _ h]

lemma markCycleB_spec (perm : List Nat) :
    ∀ (b : Nat) (v : List Bool) (j : Nat), countFalse v ≤ b →
      markCycleB perm b v j
        = (markCycle perm v j,
           b - (countFalse v - countFalse (markCycle perm v j))) := by
  intro b
  induction b with
  | zero =>
    intro v j h
    have hvis : ¬ v.getD j true = false := fun hf => by
      have := countFalse_pos v j hf
      omega
    rw [markCycle_visited _ _ _ hvis]
    simp [markCycleB]
  | succ b ih =>
    intro v j hb
    by_cases h : v.getD j true = false
    · have h2 := countFalse_set v j h
      rw [markCycle_unvisited _ _ _ h]
      have h3 := ih (v.set j true) (perm.getD j 0) (by omega)
      have h4 := countFalse_markCycle_le perm (countFalse (v.set j true))
        (v.set j true) (perm.getD j 0) le_rfl
      simp only [markCycleB, h, if_true]
      rw [h3]
      congr 1
      omega
    · rw [markCycle_visited _ _ _ h]
      simp only [markCycleB]
      rw [if_neg h]
      simp

lemma countFalse_parityLoop_le (perm : List Nat) :
    ∀ (is : List Nat) (v : List Bool) (c : Nat),
      countFalse (parityLoop perm is (v, c)).1 ≤ countFalse v := by
  intro is
  induction is with
  | nil => intro v c; exact le_rfl
  | cons i is ih =>
    intro v c
    by_cases h : v.getD i true = false
    · simp only [parityLoop, h, if_true]
      exact le_trans (ih _ _)
        (countFalse_markCycle_le perm (countFalse v) v i le_rfl)
    · simp only [parityLoop, h, if_false]
      exact ih v c

lemma parityLoopB_spec (perm : List Nat) :
    ∀ (is : List Nat) (v : List Bool) (c b : Nat), countFalse v ≤ b →
      parityLoopB perm is (v, c, b)
        = ((parityLoop perm is (v, c)).1, (parityLoop perm is (v, c)).2,
           b - (countFalse v - countFalse (parityLoop perm is (v, c)).1)) := by
  intro is
  induction is with
  | nil => intro v c b hb; simp [parityLoopB, parityLoop]
  | cons i is ih =>
    intro v c b hb
    by_cases h : v.getD i true = false
    · have hmark := markCycleB_spec perm b v i hb
      have hle := countFalse_markCycle_le perm (countFalse v) v i le_rfl
      have hloople := countFalse_parityLoop_le perm is (markCycle perm v i) (c + 1)
      simp only [parityLoopB, parityLoop, h, if_true, hmark]
      rw [ih (markCycle perm v i) (c + 1)
        (b - (countFalse v - countFalse (markCycle perm v i))) (by omega)]
      have harith : b - (countFalse v - countFalse (markCycle perm v i)) -
          (countFalse (markCycle perm v i) -
            countFalse (parityLoop perm is (markCycle perm v i, c + 1)).1)
          = b - (countFalse v -
            countFalse (parityLoop perm is (markCycle perm v i, c + 1)).1) := by
        omega
      rw [harith]
    · simp only [parityLoopB, parityLoop, h, if_false]
      exact ih v c b hb

/-- C10: under the precondition that every entry of perm is in range, the
parity computation terminates within a global budget of perm.length marking
steps (the budgeted rerun with exactly that budget returns the same answer)
and the result is in {0, 1}. -/
theorem parity_total_and_bounded (perm : List Nat)
    (h : ∀ x ∈ perm, x < perm.length) :
    parityBudget perm = get_permutation_parity perm ∧
    get_permutation_parity perm < 2 := by
  constructor
  · have hcf : countFalse (List.replicate perm.length false) = perm.length := by
      simp [countFalse, List.count_replicate]
    rw [parityBudget, get_permutation_parity,
      parityLoopB_spec perm (List.range perm.length)
        (List.replicate perm.length false) 0 perm.length (by omega)]
  · exact Nat.mod_lt _ (by omega)

theorem parity_total_and_bounded_witness :
    (∀ x ∈ [1, 0], x < ([1, 0] : List Nat).length) ∧
    (parityBudget [1, 0] = get_permutation_parity [1, 0] ∧
      get_permutation_parity [1, 0] < 2) :=
  ⟨by decide, parity_total_and_bounded [1, 0] (by decide)⟩

/- State encoder coverage: each of the 54 facelet positions is written
exactly once by the corner loop, the edge loop and the center fill. -/

lemma getD_mem_of_lt {l : List Nat} {n : Nat} (d : Nat) (h : n < l.length) :
    l.getD n d ∈ l := by
  rw [List.getD_eq_getElem _ _ h]
  exact List.getElem_mem h

lemma getD_set_ne {α : Type} (l : List α) (i j : Nat) (a d : α) (h : i ≠ j) :
    (l.set i a).getD j d = l.getD j d := by
  rw [List.getD_eq_getElem?_getD, List.getElem?_set_ne h, ← List.getD_eq_getElem?_getD]

lemma mapRange_getD (l : List Nat) :
    (List.range l.length).map (fun i => l.getD i 0) = l := by
  induction l with
  | nil => rfl
  | cons a t ih =>
    rw [List.length_cons, List.range_succ_eq_map, List.map_cons, List.map_map]
    have hc : ((fun i => (a :: t).getD i 0) ∘ fun i => i + 1) = fun i => t.getD i 0 := by
      funext i
      simp [List.getD_cons_succ]
    rw [hc, ih]
    simp

lemma rotIndex_perm3 (l : List Nat) (o : Nat) (h : l.length = 3) :
    ((List.range 3).map (fun k => l.getD ((k + o) % 3) 0)).Perm l := by
  match l, h with
  | [a, b, c], _ =>
    have ho : o % 3 = 0 ∨ o % 3 = 1 ∨ o % 3 = 2 := by omega
    rcases ho with ho | ho | ho
    · have e0 : (0 + o) % 3 = 0 := by omega
      have e1 : (1 + o) % 3 = 1 := by omega
      have e2 : (2 + o) % 3 = 2 := by omega
      simp only [show List.range 3 = [0, 1, 2] from rfl, List.map_cons, List.map_nil,
        e0, e1, e2]
      exact List.Perm.refl _
    · have e0 : (0 + o) % 3 = 1 := by omega
      have e1 : (1 + o) % 3 = 2 := by omega
      have e2 : (2 + o) % 3 = 0 := by omega
      simp only [show List.range 3 = [0, 1, 2] from rfl, List.map_cons, List.map_nil,
        e0, e1, e2]
      show List.Perm [b, c, a] [a, b, c]
      exact ((List.Perm.swap a c []).cons b).trans (List.Perm.swap a b [c])
    · have e0 : (0 + o) % 3 = 2 := by omega
      have e1 : (1 + o) % 3 = 0 := by omega
      have e2 : (2 + o) % 3 = 1 := by omega
      simp only [show List.range 3 = [0, 1, 2] from rfl, List.map_cons, List.map_nil,
        e0, e1, e2]
      show List.Perm [c, a, b] [a, b, c]
      exact (List.Perm.swap a c [b]).trans ((List.Perm.swap b c []).cons a)

lemma rotIndex_perm2 (l : List Nat) (o : Nat) (h : l.length = 2) :
    ((List.range 2).map (fun k => l.getD ((k + o) % 2) 0)).Perm l := by
  match l, h with
  | [a, b], _ =>
    have ho : o % 2 = 0 ∨ o % 2 = 1 := by omega
    rcases ho with ho | ho
    · have e0 : (0 + o) % 2 = 0 := by omega
      have e1 : (1 + o) % 2 = 1 := by omega
      simp only [show List.range 2 = [0, 1] from rfl, List.map_cons, List.map_nil, e0, e1]
      exact List.Perm.refl _
    · have e0 : (0 + o) % 2 = 1 := by omega
      have e1 : (1 + o) % 2 = 0 := by omega
      simp only [show List.range 2 = [0, 1] from rfl, List.map_cons, List.map_nil, e0, e1]
      exact List.Perm.swap a b []

lemma flatMap_perm_congr {α β : Type} (l : List α) (f g : α → List β)
    (h : ∀ a ∈ l, (f a).Perm (g a)) : (l.flatMap f).Perm (l.flatMap g) := by
  induction l with
  | nil => exact List.Perm.refl _
  | cons a t ih =>
    simp only [List.flatMap_cons]
    exact (h a (by simp)).append (ih fun x hx => h x (by simp [hx]))

lemma cornerWrites_fst (cp co : List Nat) :
    (cornerWrites cp co).map Prod.fst = (List.range 8).flatMap (fun i =>
      (List.range 3).map (fun k =>
        (corner_stickers.getD (cp.getD i 0) []).getD ((k + co.getD i 0) % 3) 0)) := by
  simp [cornerWrites, List.map_flatMap, List.map_map, Function.comp_def]

lemma edgeWrites_fst (ep eo : List Nat) :
    (edgeWrites ep eo).map Prod.fst = (List.range 12).flatMap (fun i =>
      (List.range 2).map (fun k =>
        (edge_stickers.getD (ep.getD i 0) []).getD ((k + eo.getD i 0) % 2) 0)) := by
  simp [edgeWrites, List.map_flatMap, List.map_map, Function.comp_def]

lemma cornerWrites_positions (cp co : List Nat) (hcp : cp.Perm (List.range 8)) :
    ((cornerWrites cp co).map Prod.fst).Perm
      ((List.range 8).flatMap (fun t => corner_stickers.getD t [])) := by
  have hlen : cp.length = 8 := by simpa using hcp.length_eq
  rw [cornerWrites_fst]
  have step1 : ((List.range 8).flatMap (fun i => (List.range 3).map (fun k =>
      (corner_stickers.getD (cp.getD i 0) []).getD ((k + co.getD i 0) % 3) 0))).Perm
      ((List.range 8).flatMap (fun i => corner_stickers.getD (cp.getD i 0) [])) := by
    apply flatMap_perm_congr
    intro i hi
    apply rotIndex_perm3
    have hmem : cp.getD i 0 ∈ cp := getD_mem_of_lt 0 (by
      rw [hlen]
      exact List.mem_range.mp hi)
    have hlt : cp.getD i 0 < 8 := List.mem_range.mp (hcp.mem_iff.mp hmem)
    have hall : ∀ t < 8, (corner_stickers.getD t []).length = 3 := by decide
    exact hall _ hlt
  have step2 : (List.range 8).flatMap (fun i => corner_stickers.getD (cp.getD i 0) [])
      = cp.flatMap (fun t => corner_stickers.getD t []) := by
    conv_rhs => rw [← mapRange_getD cp]
    rw [List.flatMap_map, hlen]
  have step3 : (cp.flatMap (fun t => corner_stickers.getD t [])).Perm
      ((List.range 8).flatMap (fun t => corner_stickers.getD t [])) :=
    hcp.flatMap_right _
  exact step1.trans (step2 ▸ step3)

lemma edgeWrites_positions (ep eo : List Nat) (hep : ep.Perm (List.range 12)) :
    ((edgeWrites ep eo).map Prod.fst).Perm
      ((List.range 12).flatMap (fun t => edge_stickers.getD t [])) := by
  have hlen : ep.length = 12 := by simpa using hep.length_eq
  rw [edgeWrites_fst]
  have step1 : ((List.range 12).flatMap (fun i => (List.range 2).map (fun k =>
      (edge_stickers.getD (ep.getD i 0) []).getD ((k + eo.getD i 0) % 2) 0))).Perm
      ((List.range 12).flatMap (fun i => edge_stickers.getD (ep.getD i 0) [])) := by
    apply flatMap_perm_congr
    intro i hi
    apply rotIndex_perm2
    have hmem : ep.getD i 0 ∈ ep := getD_mem_of_lt 0 (by
      rw [hlen]
      exact List.mem_range.mp hi)
    have hlt : ep.getD i 0 < 12 := List.mem_range.mp (hep.mem_iff.mp hmem)
    have hall : ∀ t < 12, (edge_stickers.getD t []).length = 2 := by decide
    exact hall _ hlt
  have step2 : (List.range 12).flatMap (fun i => edge_stickers.getD (ep.getD i 0) [])
      = ep.flatMap (fun t => edge_stickers.getD t []) := by
    conv_rhs => rw [← mapRange_getD ep]
    rw [List.flatMap_map, hlen]
  have step3 : (ep.flatMap (fun t => edge_stickers.getD t [])).Perm
      ((List.range 12).flatMap (fun t => edge_stickers.getD t [])) :=
    hep.flatMap_right _
  exact step1.trans (step2 ▸ step3)

/-- The positions written by the three phases are exactly 0..53, each
exactly once: the sticker tables and centers partition the 54 cells. -/
lemma all_positions_perm (cp ep co eo : List Nat)
    (hcp : cp.Perm (List.range 8)) (hep : ep.Perm (List.range 12)) :
    ((cornerWrites cp co ++ edgeWrites ep eo ++ centerWrites).map Prod.fst).Perm
      (List.range 54) := by
  rw [List.map_append, List.map_append]
  have h1 := cornerWrites_positions cp co hcp
  have h2 := edgeWrites_positions ep eo hep
  have h3 : centerWrites.map Prod.fst = center_indices := rfl
  have hconc : ((((List.range 8).flatMap (fun t => corner_stickers.getD t []) ++
      (List.range 12).flatMap (fun t => edge_stickers.getD t []))) ++
        center_indices).Perm (List.range 54) := by decide
  rw [h3]
  exact ((h1.append h2).append (List.Perm.refl center_indices)).trans hconc

lemma applyWrites_cons (fl : List (Option Char)) (w : Nat × Char)
    (rest : List (Nat × Char)) :
    applyWrites fl (w :: rest) = applyWrites (fl.set w.1 (some w.2)) rest := rfl

lemma applyWrites_append (fl : List (Option Char)) (ws1 ws2 : List (Nat × Char)) :
    applyWrites fl (ws1 ++ ws2) = applyWrites (applyWrites fl ws1) ws2 :=
  List.foldl_append ..

lemma applyWrites_length (ws : List (Nat × Char)) :
    ∀ fl : List (Option Char), (applyWrites fl ws).length = fl.length := by
  induction ws with
  | nil => intro fl; rfl
  | cons w rest ih =>
    intro fl
    rw [applyWrites_cons, ih, List.length_set]

lemma set_cons_perm (l : List (Option Char)) (p : Nat) (a : Option Char)
    (hp : p < l.length) :
    (l.getD p none :: l.set p a).Perm (a :: l) := by
  induction l generalizing p with
  | nil => simp at hp
  | cons b t ih =>
    cases p with
    | zero =>
      simp only [List.getD_cons_zero, List.set_cons_zero]
      exact List.Perm.swap a b t
    | succ m =>
      simp only [List.getD_cons_succ, List.set_cons_succ]
      have h1 := ih m (by simpa using hp)
      exact (List.Perm.swap b (t.getD m none) (t.set m a)).trans
        ((h1.cons b).trans (List.Perm.swap a b t))

/-- Applying writes with pairwise-distinct in-range positions: the final
array content plus the overwritten old values is, as a multiset, the
written values plus the original content. -/
lemma applyWrites_perm (ws : List (Nat × Char)) :
    ∀ fl : List (Option Char), (ws.map Prod.fst).Nodup →
      (∀ p ∈ ws.map Prod.fst, p < fl.length) →
      ((applyWrites fl ws) ++ ws.map (fun w => fl.getD w.1 none)).Perm
        ((ws.map (fun w => some w.2)) ++ fl) := by
  induction ws with
  | nil =>
    intro fl _ _
    simp only [List.map_nil, List.append_nil, List.nil_append]
    exact List.Perm.refl _
  | cons w rest ih =>
    intro fl hnd hlt
    have hw1 : w.1 < fl.length := hlt w.1 (by simp)
    simp only [List.map_cons, List.nodup_cons] at hnd
    have hndr : (rest.map Prod.fst).Nodup := hnd.2
    have hwnot : w.1 ∉ rest.map Prod.fst := hnd.1
    have hlen2 : (fl.set w.1 (some w.2)).length = fl.length := List.length_set ..
    have hlt2 : ∀ p ∈ rest.map Prod.fst, p < (fl.set w.1 (some w.2)).length := by
      intro p hp
      rw [hlen2]
      exact hlt p (by simp [hp])
    have hih := ih (fl.set w.1 (some w.2)) hndr hlt2
    have hcongr : rest.map (fun r => (fl.set w.1 (some w.2)).getD r.1 none)
        = rest.map (fun r => fl.getD r.1 none) := by
      apply List.map_congr_left
      intro r hr
      have hne : w.1 ≠ r.1 := fun he => hwnot (he ▸ List.mem_map_of_mem Prod.fst hr)
      exact getD_set_ne fl w.1 r.1 (some w.2) none hne
    rw [applyWrites_cons, List.map_cons, List.map_cons]
    have p1 : (applyWrites (fl.set w.1 (some w.2)) rest
          ++ fl.getD w.1 none :: rest.map (fun r => fl.getD r.1 none)).Perm
        (fl.getD w.1 none :: (applyWrites (fl.set w.1 (some w.2)) rest
          ++ rest.map (fun r => fl.getD r.1 none))) := List.perm_middle
    have p2 : (applyWrites (fl.set w.1 (some w.2)) rest
          ++ rest.map (fun r => fl.getD r.1 none)).Perm
        (rest.map (fun r => some r.2) ++ fl.set w.1 (some w.2)) := by
      rw [← hcongr]
      exact hih
    have p3 : (fl.getD w.1 none :: (rest.map (fun r => some r.2)
          ++ fl.set w.1 (some w.2))).Perm
        (rest.map (fun r => some r.2) ++ (fl.getD w.1 none :: fl.set w.1 (some w.2))) :=
      List.perm_middle.symm
    have p4 : (rest.map (fun r => some r.2)
          ++ (fl.getD w.1 none :: fl.set w.1 (some w.2))).Perm
        (rest.map (fun r => some r.2) ++ (some w.2 :: fl)) :=
      (set_cons_perm fl w.1 (some w.2) hw1).append_left _
    have p5 : (rest.map (fun r => some r.2) ++ (some w.2 :: fl)).Perm
        (some w.2 :: (rest.map (fun r => some r.2) ++ fl)) := List.perm_middle
    exact ((((p1.trans (p2.cons _)).trans p3).trans p4).trans p5)

lemma replicate_getD_none (n p : Nat) :
    (List.replicate n (none : Option Char)).getD p none = none := by
  rcases Nat.lt_or_ge p n with h | h
  · rw [List.getD_eq_getElem _ _ (by simpa using h)]
    simp
  · rw [List.getD_eq_default _ _ (by simpa using h)]

lemma map_const_none (l : List (Nat × Char)) :
    l.map (fun _ => (none : Option Char)) = List.replicate l.length none := by
  induction l with
  | nil => rfl
  | cons a t ih => simp [ih, List.replicate_succ]

/-- The content of the encoded facelet array is, up to order, exactly the
multiset of written characters. -/
lemma encode_content (cp ep co eo : List Nat)
    (hcp : cp.Perm (List.range 8)) (hep : ep.Perm (List.range 12)) :
    (encodeFacelets cp co ep eo).Perm
      ((cornerWrites cp co ++ edgeWrites ep eo ++ centerWrites).map
        (fun w => some w.2)) := by
  have hpos := all_positions_perm cp ep co eo hcp hep
  have hnd : ((cornerWrites cp co ++ edgeWrites ep eo ++ centerWrites).map
      Prod.fst).Nodup := hpos.nodup_iff.mpr (List.nodup_range 54)
  have hlt : ∀ p ∈ (cornerWrites cp co ++ edgeWrites ep eo ++ centerWrites).map
      Prod.fst, p < (List.replicate 54 (none : Option Char)).length := by
    intro p hp
    have := List.mem_range.mp (hpos.mem_iff.mp hp)
    simpa using this
  have hform : encodeFacelets cp co ep eo
      = applyWrites (List.replicate 54 (none : Option Char))
          (cornerWrites cp co ++ edgeWrites ep eo ++ centerWrites) := by
    rw [encodeFacelets, applyWrites_append, applyWrites_append]
  have h := applyWrites_perm
    (cornerWrites cp co ++ edgeWrites ep eo ++ centerWrites)
    (List.replicate 54 (none : Option Char)) hnd hlt
  have hws : ((cornerWrites cp co ++ edgeWrites ep eo ++ centerWrites).map
        (fun w => (List.replicate 54 (none : Option Char)).getD w.1 none))
      = List.replicate 54 (none : Option Char) := by
    have e1 : ((cornerWrites cp co ++ edgeWrites ep eo ++ centerWrites).map
        (fun w => (List.replicate 54 (none : Option Char)).getD w.1 none))
        = (cornerWrites cp co ++ edgeWrites ep eo ++ centerWrites).map
            (fun _ => (none : Option Char)) := by
      apply List.map_congr_left
      intro r _
      exact replicate_getD_none 54 r.1
    rw [e1, map_const_none]
    have : (cornerWrites cp co ++ edgeWrites ep eo ++ centerWrites).length = 54 := by
      have := hpos.length_eq
      simpa using this
    rw [this]
  rw [hform]
  rw [hws] at h
  exact (List.perm_append_right_iff _).mp h

lemma string_mk_data (l : List Char) : (String.mk l).data = l := rfl

lemma string_mk_length (l : List Char) : (String.mk l).length = l.length := rfl

lemma cornerWrites_snd (cp co : List Nat) :
    (cornerWrites cp co).map Prod.snd = (List.range 8).flatMap (fun i =>
      (List.range 3).map (fun k =>
        solved_chars.getD ((corner_stickers.getD i []).getD k 0) ' ')) := by
  simp [cornerWrites, List.map_flatMap, List.map_map, Function.comp_def]

lemma edgeWrites_snd (ep eo : List Nat) :
    (edgeWrites ep eo).map Prod.snd = (List.range 12).flatMap (fun i =>
      (List.range 2).map (fun k =>
        solved_chars.getD ((edge_stickers.getD i []).getD k 0) ' ')) := by
  simp [edgeWrites, List.map_flatMap, List.map_map, Function.comp_def]

lemma swapFirstTwo_perm (l : List Nat) : (swapFirstTwo l).Perm l := by
  match l with
  | [] => exact List.Perm.refl _
  | [a] => exact List.Perm.refl _
  | a :: b :: t => exact List.Perm.swap a b t

lemma fixParity_perm (cp ep : List Nat) (hep : ep.Perm (List.range 12)) :
    (fixParity cp ep).Perm (List.range 12) := by
  rw [fixParity]
  split
  · exact (swapFirstTwo_perm ep).trans hep
  · exact hep

lemma encodeFacelets_length (cp co ep eo : List Nat) :
    (encodeFacelets cp co ep eo).length = 54 := by
  rw [encodeFacelets, applyWrites_length, applyWrites_length, applyWrites_length]
  simp

lemma encode_no_none (cp ep co eo : List Nat)
    (hcp : cp.Perm (List.range 8)) (hep : ep.Perm (List.range 12)) :
    ∀ o ∈ encodeFacelets cp co ep eo, o.isSome = true := by
  intro o ho
  have hmem := (encode_content cp ep co eo hcp hep).mem_iff.mp ho
  obtain ⟨w, _, rfl⟩ := List.mem_map.mp hmem
  rfl

lemma generate_ok (cp ep coD eoD : List Nat)
    (hcp : cp.Perm (List.range 8)) (hep : ep.Perm (List.range 12)) :
    generate_random_state_string cp ep coD eoD
      = Except.ok (String.mk ((encodeFacelets cp (completeCorners coD)
          (fixParity cp ep) (completeEdges eoD)).map (fun o => o.getD ' '))) := by
  have hep2 : (fixParity cp ep).Perm (List.range 12) := fixParity_perm cp ep hep
  have hnone : (encodeFacelets cp (completeCorners coD) (fixParity cp ep)
      (completeEdges eoD)).any (fun o => o.isNone) = false := by
    rw [List.any_eq_false]
    intro o ho
    have := encode_no_none cp (fixParity cp ep) (completeCorners coD)
      (completeEdges eoD) hcp hep2 o ho
    simp [Option.isNone, Option.isSome] at *
    cases o with
    | none => simp at this
    | some c => rfl
  rw [generate_random_state_string]
  simp only [hnone, Bool.false_eq_true, if_false]

/-- C5: for every pair of permutations cp of 0..7 and ep of 0..11 and every
in-range orientation assignment, the corner loop, edge loop and center fill
together write each of the 54 facelet positions exactly once (the write
positions are a permutation of 0..53), so the encoded array has no empty
cell and the ValueError branch of generate_random_state_string is
unreachable. -/
theorem encoder_writes_partition (cp ep co eo : List Nat)
    (hcp : cp.Perm (List.range 8)) (hep : ep.Perm (List.range 12))
    (hco : co.length = 8) (hco3 : ∀ x ∈ co, x < 3)
    (heo : eo.length = 12) (heo2 : ∀ x ∈ eo, x < 2) :
    ((cornerWrites cp co ++ edgeWrites ep eo ++ centerWrites).map Prod.fst).Perm
      (List.range 54) ∧
    (∀ o ∈ encodeFacelets cp co ep eo, o.isSome = true) ∧
    (∀ coD eoD : List Nat, ∀ e : String,
      generate_random_state_string cp ep coD eoD ≠ Except.error e) := by
  refine ⟨all_positions_perm cp ep co eo hcp hep,
    encode_no_none cp ep co eo hcp hep, ?_⟩
  intro coD eoD e hcontra
  rw [generate_ok cp ep coD eoD hcp hep] at hcontra
  exact Except.noConfusion hcontra

theorem encoder_writes_partition_witness :
    (([0, 1, 2, 3, 4, 5, 6, 7] : List Nat).Perm (List.range 8) ∧
      ([0, 1, 2, 3, 4, 5, 6, 7, 8, 9, 10, 11] : List Nat).Perm (List.range 12)) ∧
    (((cornerWrites [0, 1, 2, 3, 4, 5, 6, 7] (List.replicate 8 0)
        ++ edgeWrites [0, 1, 2, 3, 4, 5, 6, 7, 8, 9, 10, 11] (List.replicate 12 0)
        ++ centerWrites).map Prod.fst).Perm (List.range 54) ∧
      (∀ o ∈ encodeFacelets [0, 1, 2, 3, 4, 5, 6, 7] (List.replicate 8 0)
        [0, 1, 2, 3, 4, 5, 6, 7, 8, 9, 10, 11] (List.replicate 12 0),
          o.isSome = true) ∧
      (∀ coD eoD : List Nat, ∀ e : String,
        generate_random_state_string [0, 1, 2, 3, 4, 5, 6, 7]
          [0, 1, 2, 3, 4, 5, 6, 7, 8, 9, 10, 11] coD eoD ≠ Except.error e)) :=
  ⟨⟨by decide, by decide⟩,
    encoder_writes_partition [0, 1, 2, 3, 4, 5, 6, 7]
      [0, 1, 2, 3, 4, 5, 6, 7, 8, 9, 10, 11] (List.replicate 8 0)
      (List.replicate 12 0) (by decide) (by decide) (by decide) (by decide)
      (by decide) (by decide)⟩

/-- C4: every facelet string returned by generate_random_state_string (for
shuffled permutations and in-range orientation draws) has length exactly 54
and contains each of the six face symbols exactly 9 times; the generator
returns it through the Except.ok branch, so every position was filled. -/
theorem generate_valid_facelets (cp ep coD eoD : List Nat)
    (hcp : cp.Perm (List.range 8)) (hep : ep.Perm (List.range 12))
    (hco : coD.length = 7) (hco3 : ∀ x ∈ coD, x < 3)
    (heo : eoD.length = 11) (heo2 : ∀ x ∈ eoD, x < 2) :
    ∃ s : String, generate_random_state_string cp ep coD eoD = Except.ok s ∧
      s.length = 54 ∧
      s.data.count 'U' = 9 ∧ s.data.count 'R' = 9 ∧ s.data.count 'F' = 9 ∧
      s.data.count 'D' = 9 ∧ s.data.count 'L' = 9 ∧ s.data.count 'B' = 9 := by
  have hep2 : (fixParity cp ep).Perm (List.range 12) := fixParity_perm cp ep hep
  refine ⟨_, generate_ok cp ep coD eoD hcp hep, ?_, ?_⟩
  · rw [string_mk_length, List.length_map, encodeFacelets_length]
  · have hcontent := encode_content cp (fixParity cp ep) (completeCorners coD)
      (completeEdges eoD) hcp hep2
    have hperm : ((encodeFacelets cp (completeCorners coD) (fixParity cp ep)
        (completeEdges eoD)).map (fun o => o.getD ' ')).Perm
        ((cornerWrites cp (completeCorners coD)
          ++ edgeWrites (fixParity cp ep) (completeEdges eoD)
          ++ centerWrites).map Prod.snd) := by
      have h1 := hcontent.map (fun o => o.getD ' ')
      rw [List.map_map] at h1
      have h2 : ((fun o => Option.getD o ' ') ∘ fun w => some w.2)
          = fun w : Nat × Char => w.2 := rfl
      rw [h2] at h1
      exact h1
    have hchars : ((cornerWrites cp (completeCorners coD)
        ++ edgeWrites (fixParity cp ep) (completeEdges eoD)
        ++ centerWrites).map Prod.snd)
        = ((List.range 8).flatMap (fun i => (List.range 3).map (fun k =>
            solved_chars.getD ((corner_stickers.getD i []).getD k 0) ' '))
          ++ (List.range 12).flatMap (fun i => (List.range 2).map (fun k =>
            solved_chars.getD ((edge_stickers.getD i []).getD k 0) ' '))
          ++ centerWrites.map Prod.snd) := by
      rw [List.map_append, List.map_append, cornerWrites_snd, edgeWrites_snd]
    refine ⟨?_, ?_, ?_, ?_, ?_, ?_⟩ <;>
      · rw [string_mk_data, hperm.count_eq, hchars]
        decide

theorem generate_valid_facelets_witness :
    (([0, 1, 2, 3, 4, 5, 6, 7] : List Nat).Perm (List.range 8) ∧
      ([0, 1, 2, 3, 4, 5, 6, 7, 8, 9, 10, 11] : List Nat).Perm (List.range 12)) ∧
    ∃ s : String, generate_random_state_string [0, 1, 2, 3, 4, 5, 6, 7]
        [0, 1, 2, 3, 4, 5, 6, 7, 8, 9, 10, 11] (List.replicate 7 0)
        (List.replicate 11 0) = Except.ok s ∧
      s.length = 54 ∧
      s.data.count 'U' = 9 ∧ s.data.count 'R' = 9 ∧ s.data.count 'F' = 9 ∧
      s.data.count 'D' = 9 ∧ s.data.count 'L' = 9 ∧ s.data.count 'B' = 9 :=
  ⟨⟨by decide, by decide⟩,
    generate_valid_facelets [0, 1, 2, 3, 4, 5, 6, 7]
      [0, 1, 2, 3, 4, 5, 6, 7, 8, 9, 10, 11] (List.replicate 7 0)
      (List.replicate 11 0) (by decide) (by decide) (by decide) (by decide)
      (by decide) (by decide)⟩

/- Correctness of get_permutation_parity (claim C7): the loop counts the
disjoint cycles of the permutation, and (n - cycles) mod 2 is the standard
sign. The list is reflected as an Equiv.Perm on Fin n. -/

lemma getD_set_self {α : Type} (l : List α) (i : Nat) (a d : α)
    (h : i < l.length) : (l.set i a).getD i d = a := by
  rw [List.getD_eq_getElem?_getD, List.getElem?_set_eq_of_lt a h]
  rfl

/-- The permutation of Fin n encoded by a list that is a rearrangement of
[0, n): position i maps to the list entry at i. -/
def permEquiv (perm : List Nat) (h : perm.Perm (List.range perm.length)) :
    Equiv.Perm (Fin perm.length) where
  toFun i := ⟨perm.getD i.val 0, by
    have hmem : perm.getD i.val 0 ∈ perm := getD_mem_of_lt 0 i.isLt
    simpa using h.mem_iff.mp hmem⟩
  invFun i := ⟨perm.indexOf i.val, by
    have hmem : (i : Nat) ∈ perm := h.mem_iff.mpr (by simpa using i.isLt)
    exact List.indexOf_lt_length.mpr hmem⟩
  left_inv := by
    intro i
    have hnd : perm.Nodup := h.nodup_iff.mpr (List.nodup_range _)
    apply Fin.ext
    show perm.indexOf (perm.getD i.val 0) = i.val
    rw [List.getD_eq_getElem _ _ i.isLt]
    exact List.indexOf_getElem hnd i.val i.isLt
  right_inv := by
    intro i
    have hmem : (i : Nat) ∈ perm := h.mem_iff.mpr (by simpa using i.isLt)
    apply Fin.ext
    show perm.getD (perm.indexOf i.val) 0 = i.val
    rw [List.getD_eq_getElem _ _ (List.indexOf_lt_length.mpr hmem)]
    exact List.getElem_indexOf _

lemma permEquiv_getD (perm : List Nat) (h : perm.Perm (List.range perm.length))
    (i : Fin perm.length) : perm.getD i.val 0 = ((permEquiv perm h) i).val := rfl

/-- The orbit of j under σ: the indices on the same cycle as j. -/
def orbitF {n : Nat} (σ : Equiv.Perm (Fin n)) (j : Fin n) : Finset (Fin n) :=
  Finset.univ.filter (fun x => σ.SameCycle j x)

/-- The number of disjoint cycles of σ: the number of distinct orbits
(fixed points counting as cycles of length one). -/
def cycleCount {n : Nat} (σ : Equiv.Perm (Fin n)) : Nat :=
  (Finset.univ.image (fun i => orbitF σ i)).card

/-- A visited array represents a set of marked indices. -/
def ReprV {n : Nat} (v : List Bool) (S : Finset (Fin n)) : Prop :=
  v.length = n ∧ ∀ i : Fin n, (v.getD i.val true = true ↔ i ∈ S)

/-- A σ-invariant set of indices. -/
def InvSet {n : Nat} (σ : Equiv.Perm (Fin n)) (S : Finset (Fin n)) : Prop :=
  ∀ i, i ∈ S ↔ σ i ∈ S

lemma mem_orbitF {n : Nat} (σ : Equiv.Perm (Fin n)) (j x : Fin n) :
    x ∈ orbitF σ j ↔ σ.SameCycle j x := by
  simp [orbitF]

lemma orbitF_apply {n : Nat} (σ : Equiv.Perm (Fin n)) (j : Fin n) :
    orbitF σ (σ j) = orbitF σ j := by
  ext x
  simp only [mem_orbitF]
  exact Equiv.Perm.sameCycle_apply_left

lemma invSet_pow {n : Nat} {σ : Equiv.Perm (Fin n)} {S : Finset (Fin n)}
    (hS : InvSet σ S) (k : Nat) (x : Fin n) : (σ ^ k) x ∈ S ↔ x ∈ S := by
  induction k with
  | zero => simp
  | succ k ih =>
    rw [pow_succ', Equiv.Perm.mul_apply]
    exact (hS ((σ ^ k) x)).symm.trans ih

lemma orbit_not_in_invSet {n : Nat} {σ : Equiv.Perm (Fin n)} {S : Finset (Fin n)}
    (hS : InvSet σ S) {j : Fin n} (hj : j ∉ S) :
    ∀ x ∈ orbitF σ j, x ∉ S := by
  intro x hx
  obtain ⟨k, _, hk⟩ := ((mem_orbitF σ j x).mp hx).exists_pow_eq'
  rw [← hk]
  intro hmem
  exact hj ((invSet_pow hS k j).mp hmem)

lemma reprV_set {n : Nat} {v : List Bool} {S : Finset (Fin n)}
    (hr : ReprV v S) (j : Fin n) :
    ReprV (v.set j.val true) (insert j S) := by
  obtain ⟨hlen, hmem⟩ := hr
  refine ⟨by rw [List.length_set, hlen], ?_⟩
  intro i
  by_cases hij : i = j
  · subst hij
    rw [getD_set_self v i.val true true (by rw [hlen]; exact i.isLt)]
    simp
  · rw [getD_set_ne v j.val i.val true true (fun he => hij (Fin.ext he.symm))]
    rw [hmem i]
    simp [Finset.mem_insert, hij]

/-- A set that contains j, consists of indices on j's cycle, and is closed
under σ up to returning to j, is exactly the orbit of j. -/
lemma closed_eq_orbit {n : Nat} (σ : Equiv.Perm (Fin n)) (M : Finset (Fin n))
    (j : Fin n) (hjM : j ∈ M) (hMj : ∀ x ∈ M, σ.SameCycle j x)
    (hcl : ∀ x ∈ M, σ x ∈ M ∨ σ x = j) :
    orbitF σ j = M := by
  have hclosed : ∀ x ∈ M, σ x ∈ M := by
    intro x hx
    rcases hcl x hx with h | h
    · exact h
    · rw [h]; exact hjM
  ext x
  rw [mem_orbitF]
  constructor
  · intro hx
    obtain ⟨k, -, hk⟩ := hx.exists_pow_eq'
    rw [← hk]
    clear hk
    induction k with
    | zero => simpa using hjM
    | succ k ih =>
      rw [pow_succ', Equiv.Perm.mul_apply]
      exact hclosed _ ih
  · exact hMj x

/-- The inner while loop, started at an unvisited index j whose cycle is
disjoint from the invariant visited set S (except for the part M of j's own
cycle already walked), marks exactly the whole orbit of j. -/
lemma mark_aux {n : Nat} (perm : List Nat) (σ : Equiv.Perm (Fin n))
    (hlen : perm.length = n)
    (hag : ∀ i : Fin n, perm.getD i.val 0 = (σ i).val) :
    ∀ (k : Nat) (S M : Finset (Fin n)) (j : Fin n) (v : List Bool),
      (Finset.univ \ (S ∪ M)).card ≤ k →
      InvSet σ S → (∀ x ∈ M, x ∉ S) → j ∉ S →
      (∀ x ∈ M, σ.SameCycle j x) →
      (∀ x ∈ M, σ x ∈ M ∨ σ x = j) →
      ReprV v (S ∪ M) →
      ReprV (markCycle perm v j.val) (S ∪ orbitF σ j) := by
  intro k
  induction k with
  | zero =>
    intro S M j v hcard hS hMS hjS hMj hcl hv
    have hjSM : j ∈ S ∪ M := by
      by_contra hjnot
      have : j ∈ Finset.univ \ (S ∪ M) := by
        simp [Finset.mem_sdiff, hjnot]
      have := Finset.card_pos.mpr ⟨j, this⟩
      omega
    have hjM : j ∈ M := by
      rcases Finset.mem_union.mp hjSM with h | h
      · exact absurd h hjS
      · exact h
    have hvis : v.getD j.val true = true := (hv.2 j).mpr hjSM
    rw [markCycle_visited _ _ _ (by rw [hvis]; exact fun he => absurd he (by decide))]
    rw [closed_eq_orbit σ M j hjM hMj hcl]
    exact hv
  | succ k ih =>
    intro S M j v hcard hS hMS hjS hMj hcl hv
    by_cases hjM : j ∈ M
    · have hjSM : j ∈ S ∪ M := Finset.mem_union_right S hjM
      have hvis : v.getD j.val true = true := (hv.2 j).mpr hjSM
      rw [markCycle_visited _ _ _ (by rw [hvis]; exact fun he => absurd he (by decide))]
      rw [closed_eq_orbit σ M j hjM hMj hcl]
      exact hv
    · have hjSM : j ∉ S ∪ M := by
        rw [Finset.mem_union]
        rintro (h | h)
        · exact hjS h
        · exact hjM h
      have hunvis : v.getD j.val true = false := by
        have := hv.2 j
        rcases Bool.eq_false_or_eq_true (v.getD j.val true) with h | h
        · exact absurd (this.mp h) hjSM
        · exact h
      rw [markCycle_unvisited _ _ _ hunvis]
      have hagj : perm.getD j.val 0 = (σ j).val := hag j
      rw [hagj]
      have hcard2 : (Finset.univ \ (S ∪ insert j M)).card ≤ k := by
        have he : S ∪ insert j M = insert j (S ∪ M) := by
          rw [Finset.union_insert]
        rw [he, Finset.sdiff_insert]
        have hjmem : j ∈ Finset.univ \ (S ∪ M) := by
          simp [Finset.mem_sdiff, hjSM]
        have := Finset.card_erase_of_mem hjmem
        omega
      have hres := ih S (insert j M) (σ j) (v.set j.val true) hcard2 hS
        (by
          intro x hx
          rcases Finset.mem_insert.mp hx with rfl | hx2
          · exact hjS
          · exact hMS x hx2)
        (fun hmem => hjS ((hS j).mpr hmem))
        (by
          intro x hx
          rcases Finset.mem_insert.mp hx with rfl | hx2
          · exact Equiv.Perm.sameCycle_apply_left.mpr (Equiv.Perm.SameCycle.refl σ x)
          · exact Equiv.Perm.sameCycle_apply_left.mpr (hMj x hx2))
        (by
          intro x hx
          rcases Finset.mem_insert.mp hx with rfl | hx2
          · exact Or.inr rfl
          · rcases hcl x hx2 with h | h
            · exact Or.inl (Finset.mem_insert_of_mem h)
            · exact Or.inl (h ▸ Finset.mem_insert_self j M))
        (by
          have := reprV_set hv j
          rwa [show insert j (S ∪ M) = S ∪ insert j M from
            (Finset.union_insert ..).symm] at this)
      rwa [orbitF_apply] at hres

/- Outer loop of get_permutation_parity: each increment of the counter
happens exactly when index k is the smallest element of a new cycle. -/

/-- Indices lying on the cycle of some index smaller than k. -/
def orbitsBelow {n : Nat} (σ : Equiv.Perm (Fin n)) (k : Nat) : Finset (Fin n) :=
  Finset.univ.filter (fun x => ∃ y : Fin n, y.val < k ∧ σ.SameCycle y x)

/-- The number of cycle-minimal indices smaller than k. -/
def minimaBelow {n : Nat} (σ : Equiv.Perm (Fin n)) (k : Nat) : Nat :=
  (Finset.univ.filter (fun i : Fin n =>
    (∀ j, σ.SameCycle i j → i ≤ j) ∧ i.val < k)).card

lemma mem_orbitsBelow {n : Nat} (σ : Equiv.Perm (Fin n)) (k : Nat) (x : Fin n) :
    x ∈ orbitsBelow σ k ↔ ∃ y : Fin n, y.val < k ∧ σ.SameCycle y x := by
  simp [orbitsBelow]

lemma invSet_orbitsBelow {n : Nat} (σ : Equiv.Perm (Fin n)) (k : Nat) :
    InvSet σ (orbitsBelow σ k) := by
  intro x
  simp only [mem_orbitsBelow]
  constructor
  · rintro ⟨y, hy, hc⟩
    exact ⟨y, hy, Equiv.Perm.sameCycle_apply_right.mpr hc⟩
  · rintro ⟨y, hy, hc⟩
    exact ⟨y, hy, Equiv.Perm.sameCycle_apply_right.mp hc⟩

lemma orbitsBelow_succ {n : Nat} (σ : Equiv.Perm (Fin n)) (k : Nat) (hk : k < n) :
    orbitsBelow σ (k + 1) = orbitsBelow σ k ∪ orbitF σ ⟨k, hk⟩ := by
  ext x
  simp only [mem_orbitsBelow, Finset.mem_union, mem_orbitF]
  constructor
  · rintro ⟨y, hy, hc⟩
    rcases Nat.lt_or_ge y.val k with h | h
    · exact Or.inl ⟨y, h, hc⟩
    · have : y = ⟨k, hk⟩ := Fin.ext (by show y.val = k; omega)
      exact Or.inr (this ▸ hc)
  · rintro (⟨y, hy, hc⟩ | hc)
    · exact ⟨y, by omega, hc⟩
    · exact ⟨⟨k, hk⟩, by show k < k + 1; omega, hc⟩

lemma orbitsBelow_succ_of_mem {n : Nat} (σ : Equiv.Perm (Fin n)) (k : Nat)
    (hk : k < n) (hmem : (⟨k, hk⟩ : Fin n) ∈ orbitsBelow σ k) :
    orbitsBelow σ (k + 1) = orbitsBelow σ k := by
  rw [orbitsBelow_succ σ k hk]
  apply Finset.union_eq_left.mpr
  intro x hx
  obtain ⟨y, hy, hc⟩ := (mem_orbitsBelow σ k _).mp hmem
  exact (mem_orbitsBelow σ k x).mpr ⟨y, hy, hc.trans ((mem_orbitF σ _ x).mp hx)⟩

lemma minimaBelow_succ_of_mem {n : Nat} (σ : Equiv.Perm (Fin n)) (k : Nat)
    (hk : k < n) (hmem : (⟨k, hk⟩ : Fin n) ∈ orbitsBelow σ k) :
    minimaBelow σ (k + 1) = minimaBelow σ k := by
  unfold minimaBelow
  congr 1
  apply Finset.filter_congr
  intro i _
  constructor
  · rintro ⟨hmin, hlt⟩
    refine ⟨hmin, ?_⟩
    rcases Nat.lt_or_ge i.val k with h | h
    · exact h
    · exfalso
      have hval : i.val = k := by omega
      have hik : i = ⟨k, hk⟩ := Fin.ext hval
      obtain ⟨y, hy, hc⟩ := (mem_orbitsBelow σ k _).mp hmem
      have hcy : σ.SameCycle i y := by rw [hik]; exact hc.symm
      have h2 : i ≤ y := hmin y hcy
      have h3 : i.val ≤ y.val := h2
      omega
  · rintro ⟨hmin, hlt⟩
    exact ⟨hmin, by omega⟩

lemma minimaBelow_succ_of_not_mem {n : Nat} (σ : Equiv.Perm (Fin n)) (k : Nat)
    (hk : k < n) (hmem : (⟨k, hk⟩ : Fin n) ∉ orbitsBelow σ k) :
    minimaBelow σ (k + 1) = minimaBelow σ k + 1 := by
  have hmin : ∀ j, σ.SameCycle (⟨k, hk⟩ : Fin n) j → (⟨k, hk⟩ : Fin n) ≤ j := by
    intro j hc
    rcases Nat.lt_or_ge j.val k with h | h
    · exact absurd ((mem_orbitsBelow σ k _).mpr ⟨j, h, hc.symm⟩) hmem
    · exact h
  unfold minimaBelow
  have he : Finset.univ.filter (fun i : Fin n =>
        (∀ j, σ.SameCycle i j → i ≤ j) ∧ i.val < k + 1)
      = insert (⟨k, hk⟩ : Fin n) (Finset.univ.filter (fun i : Fin n =>
        (∀ j, σ.SameCycle i j → i ≤ j) ∧ i.val < k)) := by
    ext i
    simp only [Finset.mem_filter, Finset.mem_insert, Finset.mem_univ, true_and]
    constructor
    · rintro ⟨h1, h2⟩
      rcases Nat.lt_or_ge i.val k with h | h
      · exact Or.inr ⟨h1, h⟩
      · exact Or.inl (Fin.ext (by show i.val = k; omega))
    · rintro (rfl | ⟨h1, h2⟩)
      · exact ⟨hmin, by show k < k + 1; omega⟩
      · exact ⟨h1, by omega⟩
  rw [he, Finset.card_insert_of_not_mem]
  simp only [Finset.mem_filter, not_and]
  intro _ h
  omega

lemma parityLoop_spec {n : Nat} (perm : List Nat) (σ : Equiv.Perm (Fin n))
    (hlen : perm.length = n)
    (hag : ∀ i : Fin n, perm.getD i.val 0 = (σ i).val) :
    ∀ (m k : Nat), k + m = n →
      ∀ (v : List Bool) (c : Nat), ReprV v (orbitsBelow σ k) →
        c = minimaBelow σ k →
        (parityLoop perm (List.range' k m) (v, c)).2 = minimaBelow σ n := by
  intro m
  induction m with
  | zero =>
    intro k hk v c hv hc
    have : k = n := by omega
    subst this
    simpa [parityLoop] using hc
  | succ m ih =>
    intro k hk v c hv hc
    have hkn : k < n := by omega
    rw [List.range'_succ]
    by_cases hjk : (⟨k, hkn⟩ : Fin n) ∈ orbitsBelow σ k
    · have hvis : v.getD k true = true := (hv.2 ⟨k, hkn⟩).mpr hjk
      show (parityLoop perm (k :: List.range' (k + 1) m) (v, c)).2 = _
      rw [parityLoop]
      rw [if_neg (by rw [hvis]; exact fun he => absurd he (by decide))]
      exact ih (k + 1) (by omega) v c
        (by rw [orbitsBelow_succ_of_mem σ k hkn hjk]; exact hv)
        (by rw [minimaBelow_succ_of_mem σ k hkn hjk]; exact hc)
    · have hunvis : v.getD k true = false := by
        have := hv.2 ⟨k, hkn⟩
        rcases Bool.eq_false_or_eq_true (v.getD k true) with h | h
        · exact absurd (this.mp h) hjk
        · exact h
      show (parityLoop perm (k :: List.range' (k + 1) m) (v, c)).2 = _
      rw [parityLoop]
      rw [if_pos hunvis]
      have hmark := mark_aux perm σ hlen hag (Finset.univ \ (orbitsBelow σ k ∪ ∅)).card
        (orbitsBelow σ k) ∅ ⟨k, hkn⟩ v le_rfl (invSet_orbitsBelow σ k)
        (by simp) hjk (by simp) (by simp)
        (by rw [Finset.union_empty]; exact hv)
      exact ih (k + 1) (by omega) (markCycle perm v k) (c + 1)
        (by rw [orbitsBelow_succ σ k hkn]; exact hmark)
        (by rw [minimaBelow_succ_of_not_mem σ k hkn hjk, hc])

/-- The parity loop computes the number of disjoint cycles: the counter ends
at the number of cycle-minimal indices. -/
lemma parity_eq_minima {n : Nat} (perm : List Nat) (σ : Equiv.Perm (Fin n))
    (hlen : perm.length = n)
    (hag : ∀ i : Fin n, perm.getD i.val 0 = (σ i).val) :
    get_permutation_parity perm = (n - minimaBelow σ n) % 2 := by
  have h1 : ReprV (List.replicate n false) (orbitsBelow σ 0) := by
    constructor
    · simp
    · intro i
      rw [List.getD_eq_getElem _ _ (by simpa using i.isLt)]
      simp [mem_orbitsBelow]
  have h2 : (0 : Nat) = minimaBelow σ 0 := by
    symm
    unfold minimaBelow
    rw [Finset.card_eq_zero]
    ext i
    simp
  have hloop := parityLoop_spec perm σ hlen hag n 0 (by omega)
    (List.replicate n false) 0 h1 h2
  rw [get_permutation_parity, hlen, List.range_eq_range', hloop]

/- Counting cycles: the loop counter equals the number of distinct orbits,
which in turn matches Mathlib's cycle type, giving the standard sign. -/

lemma minimaBelow_eq_cycleCount {n : Nat} (σ : Equiv.Perm (Fin n)) :
    minimaBelow σ n = cycleCount σ := by
  have htop : minimaBelow σ n = (Finset.univ.filter
      (fun i : Fin n => ∀ j, σ.SameCycle i j → i ≤ j)).card := by
    unfold minimaBelow
    congr 1
    apply Finset.filter_congr
    intro i _
    simp [i.isLt]
  rw [htop, cycleCount]
  apply Finset.card_bij (fun i _ => orbitF σ i)
  · intro a ha
    exact Finset.mem_image_of_mem _ (Finset.mem_univ a)
  · intro a ha b hb hab
    simp only [Finset.mem_filter, Finset.mem_univ, true_and] at ha hb
    have hba : σ.SameCycle a b := (mem_orbitF σ a b).mp
      (hab ▸ (mem_orbitF σ b b).mpr (Equiv.Perm.SameCycle.refl σ b))
    have hab2 : σ.SameCycle b a := (mem_orbitF σ b a).mp
      (hab ▸ (mem_orbitF σ a a).mpr (Equiv.Perm.SameCycle.refl σ a))
    exact le_antisymm (ha b hba) (hb a hab2)
  · intro O hO
    obtain ⟨x, -, rfl⟩ := Finset.mem_image.mp hO
    have hne : (orbitF σ x).Nonempty :=
      ⟨x, (mem_orbitF σ x x).mpr (Equiv.Perm.SameCycle.refl σ x)⟩
    have hm : (orbitF σ x).min' hne ∈ orbitF σ x := Finset.min'_mem _ hne
    have hsc : σ.SameCycle x ((orbitF σ x).min' hne) := (mem_orbitF σ x _).mp hm
    refine ⟨(orbitF σ x).min' hne, ?_, ?_⟩
    · simp only [Finset.mem_filter, Finset.mem_univ, true_and]
      intro j hj
      exact Finset.min'_le _ j ((mem_orbitF σ x j).mpr (hsc.trans hj))
    · ext z
      simp only [mem_orbitF]
      exact ⟨fun h => hsc.trans h, fun h => hsc.symm.trans h⟩

lemma pow_apply_eq_self_of_fixed {n : Nat} {σ : Equiv.Perm (Fin n)} {x : Fin n}
    (hx : σ x = x) (k : Nat) : (σ ^ k) x = x := by
  induction k with
  | zero => rfl
  | succ k ih => rw [pow_succ, Equiv.Perm.mul_apply, hx, ih]

lemma sameCycle_fixed_eq {n : Nat} {σ : Equiv.Perm (Fin n)} {x y : Fin n}
    (hx : σ x = x) (h : σ.SameCycle x y) : y = x := by
  obtain ⟨k, -, hk⟩ := h.exists_pow_eq'
  rw [← hk, pow_apply_eq_self_of_fixed hx]

/-- Every orbit has exactly one cycle-minimal index, so the number of
minimal indices splits into the fixed points plus the nontrivial cycle
factors of σ. -/
lemma minima_card_split {n : Nat} (σ : Equiv.Perm (Fin n)) :
    (Finset.univ.filter (fun i : Fin n => ∀ j, σ.SameCycle i j → i ≤ j)).card
      = (Finset.univ.filter (fun i : Fin n => σ i = i)).card
        + σ.cycleFactorsFinset.card := by
  set Minima := Finset.univ.filter (fun i : Fin n => ∀ j, σ.SameCycle i j → i ≤ j)
    with hMinima
  set FixedP := Finset.univ.filter (fun i : Fin n => σ i = i) with hFixedP
  have hsub : FixedP ⊆ Minima := by
    intro i hi
    simp only [hFixedP, Finset.mem_filter, Finset.mem_univ, true_and] at hi
    simp only [hMinima, Finset.mem_filter, Finset.mem_univ, true_and]
    intro j hj
    rw [sameCycle_fixed_eq hi hj]
  have hinter : Minima ∩ FixedP = FixedP := Finset.inter_eq_right.mpr hsub
  have hcards := Finset.card_inter_add_card_sdiff Minima FixedP
  rw [hinter] at hcards
  have hsdiff : (Minima \ FixedP).card = σ.cycleFactorsFinset.card := by
    apply Finset.card_bij (fun i _ => σ.cycleOf i)
    · intro a ha
      simp only [Finset.mem_sdiff, hMinima, hFixedP, Finset.mem_filter,
        Finset.mem_univ, true_and] at ha
      exact Equiv.Perm.cycleOf_mem_cycleFactorsFinset_iff.mpr
        (Equiv.Perm.mem_support.mpr ha.2)
    · intro a ha b hb hab
      simp only [Finset.mem_sdiff, hMinima, hFixedP, Finset.mem_filter,
        Finset.mem_univ, true_and] at ha hb
      have hbsupp : b ∈ (σ.cycleOf b).support :=
        Equiv.Perm.mem_support_cycleOf_iff.mpr
          ⟨Equiv.Perm.SameCycle.refl σ b, Equiv.Perm.mem_support.mpr hb.2⟩
      rw [← hab] at hbsupp
      have hsc : σ.SameCycle a b := (Equiv.Perm.mem_support_cycleOf_iff.mp hbsupp).1
      exact le_antisymm (ha.1 b hsc) (hb.1 a hsc.symm)
    · intro c hc
      have hcyc : c.IsCycle := (Equiv.Perm.mem_cycleFactorsFinset_iff.mp hc).1
      obtain ⟨x, hx, -⟩ := hcyc
      have hxc : x ∈ c.support := Equiv.Perm.mem_support.mpr hx
      have hxs : x ∈ σ.support := Equiv.Perm.mem_cycleFactorsFinset_support_le hc hxc
      have hceq : c = σ.cycleOf x := Equiv.Perm.cycle_is_cycleOf hxc hc
      have hne : (orbitF σ x).Nonempty :=
        ⟨x, (mem_orbitF σ x x).mpr (Equiv.Perm.SameCycle.refl σ x)⟩
      set m := (orbitF σ x).min' hne with hmdef
      have hm : m ∈ orbitF σ x := Finset.min'_mem _ hne
      have hsc : σ.SameCycle x m := (mem_orbitF σ x m).mp hm
      have hmnotfix : ¬ σ m = m := by
        intro hfix
        have hxm : x = m := sameCycle_fixed_eq hfix hsc.symm
        exact (Equiv.Perm.mem_support.mp hxs) (by rw [hxm]; exact hfix)
      refine ⟨m, ?_, ?_⟩
      · simp only [Finset.mem_sdiff, hMinima, hFixedP, Finset.mem_filter,
          Finset.mem_univ, true_and]
        refine ⟨?_, hmnotfix⟩
        intro j hj
        exact Finset.min'_le _ j ((mem_orbitF σ x j).mpr (hsc.trans hj))
      · rw [hceq]
        exact (hsc.cycleOf_eq).symm
  omega

lemma multiset_card_le_sum (s : Multiset Nat) (h : ∀ a ∈ s, 1 ≤ a) :
    Multiset.card s ≤ s.sum := by
  induction s using Multiset.induction_on with
  | empty => simp
  | cons a s ih =>
    have h1 := h a (Multiset.mem_cons_self a s)
    have h2 := ih (fun b hb => h b (Multiset.mem_cons_of_mem hb))
    simp only [Multiset.card_cons, Multiset.sum_cons]
    omega

/-- The standard sign of σ equals (-1) to the power n minus the number of
disjoint cycles. -/
lemma sign_eq_cycleCount {n : Nat} (σ : Equiv.Perm (Fin n)) :
    Equiv.Perm.sign σ = (-1 : ℤˣ) ^ (n - cycleCount σ) := by
  have hsplit : cycleCount σ
      = (Finset.univ.filter (fun i : Fin n => σ i = i)).card
        + σ.cycleFactorsFinset.card := by
    rw [← minimaBelow_eq_cycleCount]
    have htop : minimaBelow σ n = (Finset.univ.filter
        (fun i : Fin n => ∀ j, σ.SameCycle i j → i ≤ j)).card := by
      unfold minimaBelow
      congr 1
      apply Finset.filter_congr
      intro i _
      simp [i.isLt]
    rw [htop, minima_card_split]
  have hfix : (Finset.univ.filter (fun i : Fin n => σ i = i)).card
      + σ.support.card = n := by
    have h1 := Finset.filter_card_add_filter_neg_card_eq_card
      (s := Finset.univ) (fun i : Fin n => σ i = i)
    have h2 : Finset.univ.filter (fun i : Fin n => ¬ σ i = i) = σ.support := by
      ext i
      simp [Equiv.Perm.mem_support]
    rw [h2] at h1
    simpa using h1
  have hsum : σ.cycleType.sum = σ.support.card := Equiv.Perm.sum_cycleType σ
  have hcard : Multiset.card σ.cycleType = σ.cycleFactorsFinset.card := by
    rw [Equiv.Perm.cycleType_def, Multiset.card_map]
    rfl
  have hle : Multiset.card σ.cycleType ≤ σ.cycleType.sum :=
    multiset_card_le_sum _ (fun a ha =>
      le_trans (by omega) (Equiv.Perm.two_le_of_mem_cycleType ha))
  rw [Equiv.Perm.sign_of_cycleType]
  have he : σ.cycleType.sum + Multiset.card σ.cycleType
      = (n - cycleCount σ) + 2 * Multiset.card σ.cycleType := by
    omega
  rw [he, pow_add, pow_mul]
  norm_num

lemma neg_one_pow_eq_one_iff (e : Nat) :
    ((-1 : ℤˣ) ^ e = 1) ↔ e % 2 = 0 := by
  constructor
  · intro hs
    by_contra hne
    have hodd : Odd e := Nat.odd_iff.mpr (by omega)
    rw [Odd.neg_one_pow hodd] at hs
    exact absurd hs (by decide)
  · intro he
    exact Even.neg_one_pow (Nat.even_iff.mpr he)

/-- Parity of the loop output against the standard sign, for any σ that
agrees with the list. -/
lemma parity_sign_iff {n : Nat} (perm : List Nat) (σ : Equiv.Perm (Fin n))
    (hlen : perm.length = n)
    (hag : ∀ i : Fin n, perm.getD i.val 0 = (σ i).val) :
    get_permutation_parity perm = (n - cycleCount σ) % 2 ∧
    (get_permutation_parity perm = 0 ↔ Equiv.Perm.sign σ = 1) := by
  have hpar := parity_eq_minima perm σ hlen hag
  rw [minimaBelow_eq_cycleCount] at hpar
  refine ⟨hpar, ?_⟩
  rw [hpar, sign_eq_cycleCount]
  exact (neg_one_pow_eq_one_iff (n - cycleCount σ)).symm

/-- C7: for every permutation perm of [0, n), get_permutation_parity
computes the cycle-decomposition parity: it equals (n - c) mod 2 where c is
the number of disjoint cycles, with 0 meaning even, and this agrees with
the standard sign of the permutation (0 exactly when the sign is +1). -/
theorem parity_spec (perm : List Nat) (h : perm.Perm (List.range perm.length)) :
    get_permutation_parity perm
      = (perm.length - cycleCount (permEquiv perm h)) % 2 ∧
    (get_permutation_parity perm = 0 ↔
      Equiv.Perm.sign (permEquiv perm h) = 1) :=
  parity_sign_iff perm (permEquiv perm h) rfl (fun _ => rfl)

theorem parity_spec_witness :
    ([1, 2, 0] : List Nat).Perm (List.range 3) ∧
    (get_permutation_parity [1, 2, 0]
        = (([1, 2, 0] : List Nat).length
            - cycleCount (permEquiv [1, 2, 0] (by decide))) % 2 ∧
      (get_permutation_parity [1, 2, 0] = 0 ↔
        Equiv.Perm.sign (permEquiv [1, 2, 0] (by decide)) = 1)) :=
  ⟨by decide, parity_spec [1, 2, 0] (by decide)⟩

/- Claim C2: the corrective swap of the first two edge entries restores
parity equality. -/

lemma parity_lt_two (perm : List Nat) : get_permutation_parity perm < 2 :=
  Nat.mod_lt _ (by omega)

/-- Swapping the first two entries of a permutation list flips the computed
parity: the swapped list is the original permutation composed with the
transposition of positions 0 and 1. -/
lemma parity_swapFirstTwo (ep : List Nat)
    (h : ep.Perm (List.range ep.length)) (hlen : 2 ≤ ep.length) :
    get_permutation_parity (swapFirstTwo ep) ≠ get_permutation_parity ep := by
  match ep, h, hlen with
  | a :: b :: t, h, _ =>
    have h0 : (0 : Nat) < (a :: b :: t).length := by simp
    have h1 : (1 : Nat) < (a :: b :: t).length := by simp
    set σ := permEquiv (a :: b :: t) h with hσ
    set τ : Equiv.Perm (Fin (a :: b :: t).length) :=
      Equiv.swap ⟨0, h0⟩ ⟨1, h1⟩ with hτ
    have hne01 : (⟨0, h0⟩ : Fin (a :: b :: t).length) ≠ ⟨1, h1⟩ := by
      intro he
      have : (0 : Nat) = 1 := congrArg Fin.val he
      omega
    have hlen2 : (swapFirstTwo (a :: b :: t)).length = (a :: b :: t).length := rfl
    have hag2 : ∀ i : Fin (a :: b :: t).length,
        (swapFirstTwo (a :: b :: t)).getD i.val 0 = ((σ * τ) i).val := by
      rintro ⟨iv, hiv⟩
      match iv, hiv with
      | 0, hiv =>
        show (b :: a :: t).getD 0 0 = ((σ (τ ⟨0, h0⟩)) : Nat)
        have hsw : τ ⟨0, h0⟩ = ⟨1, h1⟩ := Equiv.swap_apply_left _ _
        rw [hsw, ← permEquiv_getD (a :: b :: t) h ⟨1, h1⟩]
        rfl
      | 1, hiv =>
        show (b :: a :: t).getD 1 0 = ((σ (τ ⟨1, h1⟩)) : Nat)
        have hsw : τ ⟨1, h1⟩ = ⟨0, h0⟩ := Equiv.swap_apply_right _ _
        rw [hsw, ← permEquiv_getD (a :: b :: t) h ⟨0, h0⟩]
        rfl
      | m + 2, hiv =>
        show (b :: a :: t).getD (m + 2) 0 = ((σ (τ ⟨m + 2, hiv⟩)) : Nat)
        have hne0 : (⟨m + 2, hiv⟩ : Fin (a :: b :: t).length) ≠ ⟨0, h0⟩ := by
          intro he
          have : m + 2 = 0 := congrArg Fin.val he
          omega
        have hne1 : (⟨m + 2, hiv⟩ : Fin (a :: b :: t).length) ≠ ⟨1, h1⟩ := by
          intro he
          have : m + 2 = 1 := congrArg Fin.val he
          omega
        have hsw : τ ⟨m + 2, hiv⟩ = ⟨m + 2, hiv⟩ :=
          Equiv.swap_apply_of_ne_of_ne hne0 hne1
        rw [hsw, ← permEquiv_getD (a :: b :: t) h ⟨m + 2, hiv⟩]
        rfl
    have hs1 := parity_sign_iff (a :: b :: t) σ rfl (fun _ => rfl)
    have hs2 := parity_sign_iff (swapFirstTwo (a :: b :: t)) (σ * τ) hlen2 hag2
    have hsignmul : Equiv.Perm.sign (σ * τ) = - Equiv.Perm.sign σ := by
      rw [map_mul, Equiv.Perm.sign_swap hne01, mul_neg, mul_one]
    have hp1 := parity_lt_two (a :: b :: t)
    have hp2 := parity_lt_two (swapFirstTwo (a :: b :: t))
    intro heq
    rcases Int.units_eq_one_or (Equiv.Perm.sign σ) with hsv | hsv
    · have hz : get_permutation_parity (a :: b :: t) = 0 := hs1.2.mpr hsv
      have hz2 : get_permutation_parity (swapFirstTwo (a :: b :: t)) = 0 := by omega
      have := hs2.2.mp hz2
      rw [hsignmul, hsv] at this
      exact absurd this (by decide)
    · have hnz : ¬ get_permutation_parity (a :: b :: t) = 0 := by
        intro hz
        rw [hs1.2.mp hz] at hsv
        exact absurd hsv (by decide)
      have hnz2 : ¬ get_permutation_parity (swapFirstTwo (a :: b :: t)) = 0 := by
        omega
      have hsign2 : Equiv.Perm.sign (σ * τ) = 1 := by
        rw [hsignmul, hsv]
        decide
      exact hnz2 (hs2.2.mpr hsign2)

/-- C2: for the generator's conditional corrective swap, the corner and
edge permutation parities agree afterwards; a single transposition of the
first two edge entries always flips the edge parity, so the swap restores
equality exactly when the two independently generated parities differ. -/
theorem parity_fix_spec (cp ep : List Nat)
    (hcp : cp.Perm (List.range cp.length))
    (hep : ep.Perm (List.range ep.length)) (hlen : 2 ≤ ep.length) :
    get_permutation_parity (swapFirstTwo ep) ≠ get_permutation_parity ep ∧
    get_permutation_parity cp = get_permutation_parity (fixParity cp ep) := by
  have hflip := parity_swapFirstTwo ep hep hlen
  refine ⟨hflip, ?_⟩
  rw [fixParity]
  split
  · rename_i hne
    have h1 := parity_lt_two cp
    have h2 := parity_lt_two ep
    have h3 := parity_lt_two (swapFirstTwo ep)
    omega
  · rename_i heq
    omega

theorem parity_fix_spec_witness :
    (([1, 0] : List Nat).Perm (List.range 2) ∧
      ([0, 1, 2] : List Nat).Perm (List.range 3) ∧ 2 ≤ ([0, 1, 2] : List Nat).length) ∧
    (get_permutation_parity (swapFirstTwo [0, 1, 2])
        ≠ get_permutation_parity [0, 1, 2] ∧
      get_permutation_parity [1, 0]
        = get_permutation_parity (fixParity [1, 0] [0, 1, 2])) :=
  ⟨⟨by decide, by decide, by decide⟩,
    parity_fix_spec [1, 0] [0, 1, 2] (by decide) (by decide) (by decide)⟩

end PyCuber
